import Mathlib

/-!
Verification of the grid-maze game backend (`src/main.py`).

The embedding mirrors the source: tiles are the six cell kinds, a board is a
list of rows, a game state carries the player position, board, health, moves
and end position (Python integers are `Int`), and positions are pairs of
integers.  `update_game_state`, `make_move` and `find_winning_path` follow the
source line by line; the breadth-first search is written with an explicit
iteration budget (`bfsFuel`) which is proved sufficient, so the function is a
faithful total rendering of the source's loop.
-/

inductive Tile where
  | Blank
  | Start
  | End
  | Speeder
  | Lava
  | Mud
deriving DecidableEq, Repr

abbrev Board := List (List Tile)

abbrev Pos := Int × Int

/-- A queue entry of the BFS: position, remaining health, remaining moves. -/
abbrev QEntry := Pos × Int × Int

structure GameState where
  player_position : Pos
  board : Board
  health : Int
  moves : Int
  end_position : Pos
deriving DecidableEq, Repr

/-- `board[row][col]` for natural-number indices (used by board generation). -/
def cellAtN (board : Board) (r c : Nat) : Tile :=
  (board.getD r []).getD c Tile.Blank

/-- `board[row][col]` for integer indices as used by the game logic; all uses
in the development are guarded by in-bounds conditions, matching the source
where out-of-range indexing never occurs. -/
def cellAt (board : Board) (row col : Int) : Tile :=
  cellAtN board row.toNat col.toNat

/-- `update_game_state` from the source: apply the landed tile's effect to
health and moves, then set the player position. -/
def update_game_state (game : GameState) (row col : Int) : GameState :=
  let cell_type := cellAt game.board row col
  let game1 :=
    if cell_type = Tile.Blank then
      { game with health := game.health + 0, moves := game.moves - 1 }
    else if cell_type = Tile.Speeder then
      { game with health := game.health - 5, moves := game.moves - 0 }
    else if cell_type = Tile.Lava then
      { game with health := game.health - 50, moves := game.moves - 10 }
    else if cell_type = Tile.Mud then
      { game with health := game.health - 10, moves := game.moves - 5 }
    else game
  { game1 with player_position := (row, col) }

/-- The response dictionaries returned by the move endpoint, one constructor
per distinct shape (the `Won` shape omits the remaining resources, as in the
source). -/
inductive Response where
  | invalidMove
  | lost (tile_type : Tile) (new_position : Pos) (health_lost moves_lost : Int)
      (end_position : Pos)
  | won (tile_type : Tile) (new_position : Pos) (end_position : Pos)
  | continuing (tile_type : Tile) (new_position : Pos)
      (remaining_moves remaining_health health_lost moves_lost : Int)
      (end_position : Pos)
deriving DecidableEq, Repr

def isLost : Response → Bool
  | .lost _ _ _ _ _ => true
  | _ => false

def isWon : Response → Bool
  | .won _ _ _ => true
  | _ => false

def isContinuing : Response → Bool
  | .continuing _ _ _ _ _ _ _ => true
  | _ => false

/-- The tail of `make_move` after the destination cell has been computed:
read the tile, mutate the state, compute the losses and classify the
outcome (loss check first, then the end-position check). -/
def finishMove (game : GameState) (row col : Int) : GameState × Response :=
  let tile_type := cellAt game.board row col
  let game' := update_game_state game row col
  let health_lost := game.health - game'.health
  let moves_lost := game.moves - game'.moves
  if game'.health ≤ 0 ∨ game'.moves ≤ 0 then
    (game', .lost tile_type (row, col) health_lost moves_lost game.end_position)
  else if (row, col) = game.end_position then
    (game', .won tile_type (row, col) game.end_position)
  else
    (game', .continuing tile_type (row, col) game'.moves game'.health
      health_lost moves_lost game.end_position)

/-- `make_move` from the source: clamp one step in the requested direction,
land there, and classify; an unrecognized direction is rejected before any
mutation. -/
def make_move (game : GameState) (direction : String) : GameState × Response :=
  let row := game.player_position.1
  let col := game.player_position.2
  if direction = "up" then
    finishMove game (max 0 (row - 1)) col
  else if direction = "down" then
    finishMove game (min ((game.board.length : Int) - 1) (row + 1)) col
  else if direction = "left" then
    finishMove game row (max 0 (col - 1))
  else if direction = "right" then
    finishMove game row (min (((game.board.getD 0 []).length : Int) - 1) (col + 1))
  else
    (game, .invalidMove)

def isValidDir (d : String) : Bool :=
  d = "up" || d = "down" || d = "left" || d = "right"

/-- In-bounds test of the BFS, `0 <= new_row < rows and 0 <= new_col < cols`
with `rows = len(board)` and `cols = len(board[0])`. -/
def InBounds (board : Board) (p : Pos) : Prop :=
  0 ≤ p.1 ∧ p.1 < (board.length : Int) ∧ 0 ≤ p.2 ∧ p.2 < ((board.getD 0 []).length : Int)

instance (board : Board) (p : Pos) : Decidable (InBounds board p) := by
  unfold InBounds; infer_instance

/-- Budget cost of stepping onto a tile in the BFS: the `if/elif/else` chain
with `else` covering every kind other than Speeder, Lava and Mud. -/
def stepCost (t : Tile) : Int × Int :=
  match t with
  | .Speeder => (5, 0)
  | .Lava => (50, 10)
  | .Mud => (10, 5)
  | _ => (0, 1)

/-- The queue entries appended while expanding a position: the four
axis-neighbors in source order (right, left, down, up), kept when in bounds,
with budgets adjusted by the destination tile. -/
def neighbors (board : Board) (p : Pos) (health moves : Int) : List QEntry :=
  [((0 : Int), (1 : Int)), (0, -1), (1, 0), (-1, 0)].filterMap fun d =>
    let q : Pos := (p.1 + d.1, p.2 + d.2)
    if InBounds board q then
      some (q, health - (stepCost (cellAt board q.1 q.2)).1,
        moves - (stepCost (cellAt board q.1 q.2)).2)
    else none

/-- The BFS loop of `find_winning_path`, with an explicit iteration budget:
`none` means the budget ran out (proved impossible for `bfsFuel`). -/
def bfs (board : Board) (endp : Pos) : Nat → List QEntry → List Pos → Option Bool
  | _, [], _ => some false
  | 0, _ :: _, _ => none
  | fuel + 1, (p, health, moves) :: rest, visited =>
    if p = endp then some true
    else if health ≤ 0 ∨ moves ≤ 0 then bfs board endp fuel rest visited
    else if p ∈ visited then bfs board endp fuel rest visited
    else bfs board endp fuel (rest ++ neighbors board p health moves) (p :: visited)

/-- All in-bounds positions of the board. -/
def allCells (board : Board) : List Pos :=
  (List.range board.length).flatMap fun r =>
    (List.range (board.getD 0 []).length).map fun c => (Int.ofNat r, Int.ofNat c)

/-- An iteration budget sufficient for the BFS on any input (proved below). -/
def bfsFuel (board : Board) : Nat := 4 * (allCells board).length + 5

/-- `find_winning_path` from the source. -/
def find_winning_path (board : Board) (start endp : Pos) (health moves : Int) : Bool :=
  match bfs board endp (bfsFuel board) [(start, health, moves)] [] with
  | some b => b
  | none => false

/-- `board[row][col] = tile`, a no-op when the indices are out of range
(generation only writes in range). -/
def setCell (board : Board) (r c : Nat) (t : Tile) : Board :=
  board.set r ((board.getD r []).set c t)

/-- The placement loop of `initialize_board` for one tile kind: consume the
stream of random picks, writing the tile on the first still-Blank cell found
and decrementing the count; `none` models exhausting the stream with tiles
left to place (the source would keep drawing). -/
def place (t : Tile) : Nat → List (Nat × Nat) → Board → Option (Board × List (Nat × Nat))
  | 0, picks, b => some (b, picks)
  | _ + 1, [], _ => none
  | n + 1, (r, c) :: picks, b =>
    if cellAtN b r c = Tile.Blank then place t n picks (setCell b r c t)
    else place t (n + 1) picks b

/-- `initialize_board` from the source, with the three random counts and the
stream of random cell picks passed as arguments: a 50×50 all-Blank grid, then
Speeder, Lava and Mud placed by rejection sampling in that order. -/
def initialize_board (cs cl cm : Nat) (picks : List (Nat × Nat)) : Option Board :=
  let b0 : Board := List.replicate 50 (List.replicate 50 Tile.Blank)
  match place Tile.Speeder cs picks b0 with
  | none => none
  | some (b1, p1) =>
    match place Tile.Lava cl p1 b1 with
    | none => none
    | some (b2, p2) =>
      match place Tile.Mud cm p2 b2 with
      | none => none
      | some (b3, _) => some b3

/-- `create_game` from the source, with the random start row, end row, tile
counts and pick stream passed as arguments: generate the board, overwrite the
Start and End cells, and build the initial state with health 200 and
moves 450. -/
def create_game (start_row end_row : Nat) (cs cl cm : Nat)
    (picks : List (Nat × Nat)) : Option GameState :=
  match initialize_board cs cl cm picks with
  | none => none
  | some board =>
    some
      { player_position := ((start_row : Int), 0)
        board := setCell (setCell board start_row 0 Tile.Start) end_row 49 Tile.End
        health := 200
        moves := 450
        end_position := ((end_row : Int), 49) }

/-- `winsSeq g ds` holds when playing the direction strings `ds` from `g`
gives a `Continuing` outcome at every intermediate step and `Won` at the
last step, every direction being valid. -/
def winsSeq (g : GameState) : List String → Bool
  | [] => false
  | d :: ds =>
    let r := make_move g d
    isValidDir d &&
      (match ds with
       | [] => isWon r.2
       | _ :: _ => isContinuing r.2 && winsSeq r.1 ds)

/-- Number of cells of the board equal to the given tile. -/
def countTile (board : Board) (t : Tile) : Nat :=
  (board.map fun row => row.countP fun x => decide (x = t)).sum

/-! ## Basic lemmas about the landing mutation and move resolution -/

/-- Landing cost of a tile in `update_game_state` (health, moves): the four
effect kinds per the `if/elif` chain; Start and End fall through with no
effect. -/
def landCost (t : Tile) : Int × Int :=
  match t with
  | .Blank => (0, 1)
  | .Speeder => (5, 0)
  | .Lava => (50, 10)
  | .Mud => (10, 5)
  | _ => (0, 0)

theorem update_game_state_eq (g : GameState) (row col : Int) :
    update_game_state g row col =
      { g with
        player_position := (row, col)
        health := g.health - (landCost (cellAt g.board row col)).1
        moves := g.moves - (landCost (cellAt g.board row col)).2 } := by
  unfold update_game_state landCost
  cases cellAt g.board row col <;> simp

theorem finishMove_lost_eq (g : GameState) (row col : Int)
    (h : (update_game_state g row col).health ≤ 0 ∨ (update_game_state g row col).moves ≤ 0) :
    finishMove g row col =
      (update_game_state g row col,
       Response.lost (cellAt g.board row col) (row, col)
         (g.health - (update_game_state g row col).health)
         (g.moves - (update_game_state g row col).moves) g.end_position) := by
  simp only [finishMove]
  rw [if_pos h]

theorem finishMove_won_eq (g : GameState) (row col : Int)
    (h : ¬((update_game_state g row col).health ≤ 0 ∨ (update_game_state g row col).moves ≤ 0))
    (he : ((row, col) : Pos) = g.end_position) :
    finishMove g row col =
      (update_game_state g row col,
       Response.won (cellAt g.board row col) (row, col) g.end_position) := by
  simp only [finishMove]
  rw [if_neg h, if_pos he]

theorem finishMove_continuing_eq (g : GameState) (row col : Int)
    (h : ¬((update_game_state g row col).health ≤ 0 ∨ (update_game_state g row col).moves ≤ 0))
    (hne : ((row, col) : Pos) ≠ g.end_position) :
    finishMove g row col =
      (update_game_state g row col,
       Response.continuing (cellAt g.board row col) (row, col)
         (update_game_state g row col).moves (update_game_state g row col).health
         (g.health - (update_game_state g row col).health)
         (g.moves - (update_game_state g row col).moves) g.end_position) := by
  simp only [finishMove]
  rw [if_neg h, if_neg hne]

theorem finishMove_fst (g : GameState) (row col : Int) :
    (finishMove g row col).1 = update_game_state g row col := by
  by_cases h : (update_game_state g row col).health ≤ 0 ∨ (update_game_state g row col).moves ≤ 0
  · rw [finishMove_lost_eq g row col h]
  · by_cases he : ((row, col) : Pos) = g.end_position
    · rw [finishMove_won_eq g row col h he]
    · rw [finishMove_continuing_eq g row col h he]

theorem isLost_finishMove (g : GameState) (row col : Int)
    (h : (finishMove g row col).1.health ≤ 0 ∨ (finishMove g row col).1.moves ≤ 0) :
    isLost (finishMove g row col).2 = true := by
  rw [finishMove_fst] at h
  rw [finishMove_lost_eq g row col h]
  rfl

theorem isWon_finishMove (g : GameState) (row col : Int)
    (h : isWon (finishMove g row col).2 = true) :
    0 < (finishMove g row col).1.health ∧ 0 < (finishMove g row col).1.moves ∧
      (finishMove g row col).1.player_position = g.end_position := by
  rw [finishMove_fst]
  by_cases hl : (update_game_state g row col).health ≤ 0 ∨ (update_game_state g row col).moves ≤ 0
  · rw [finishMove_lost_eq g row col hl] at h
    simp [isWon] at h
  · by_cases he : ((row, col) : Pos) = g.end_position
    · refine ⟨by omega, by omega, ?_⟩
      rw [update_game_state_eq]
      exact he
    · rw [finishMove_continuing_eq g row col hl he] at h
      simp [isWon] at h

theorem finishMove_continuing (g : GameState) (row col : Int)
    (hh : 0 < g.health - (landCost (cellAt g.board row col)).1)
    (hm : 0 < g.moves - (landCost (cellAt g.board row col)).2)
    (hne : ((row, col) : Pos) ≠ g.end_position) :
    finishMove g row col =
      (update_game_state g row col,
       Response.continuing (cellAt g.board row col) (row, col)
         (g.moves - (landCost (cellAt g.board row col)).2)
         (g.health - (landCost (cellAt g.board row col)).1)
         (landCost (cellAt g.board row col)).1
         (landCost (cellAt g.board row col)).2
         g.end_position) := by
  have hu := update_game_state_eq g row col
  have hh' : (update_game_state g row col).health = g.health - (landCost (cellAt g.board row col)).1 := by
    rw [hu]
  have hm' : (update_game_state g row col).moves = g.moves - (landCost (cellAt g.board row col)).2 := by
    rw [hu]
  rw [finishMove_continuing_eq g row col (by omega) hne, hh', hm']
  congr 2 <;> omega

theorem finishMove_won (g : GameState) (row col : Int)
    (hh : 0 < g.health - (landCost (cellAt g.board row col)).1)
    (hm : 0 < g.moves - (landCost (cellAt g.board row col)).2)
    (he : ((row, col) : Pos) = g.end_position) :
    finishMove g row col =
      (update_game_state g row col,
       Response.won (cellAt g.board row col) (row, col) g.end_position) := by
  have hu := update_game_state_eq g row col
  have hh' : (update_game_state g row col).health = g.health - (landCost (cellAt g.board row col)).1 := by
    rw [hu]
  have hm' : (update_game_state g row col).moves = g.moves - (landCost (cellAt g.board row col)).2 := by
    rw [hu]
  exact finishMove_won_eq g row col (by omega) he

theorem make_move_valid (g : GameState) (d : String)
    (hd : d ∈ (["up", "down", "left", "right"] : List String)) :
    make_move g d =
      if d = "up" then
        finishMove g (max 0 (g.player_position.1 - 1)) g.player_position.2
      else if d = "down" then
        finishMove g (min ((g.board.length : Int) - 1) (g.player_position.1 + 1))
          g.player_position.2
      else if d = "left" then
        finishMove g g.player_position.1 (max 0 (g.player_position.2 - 1))
      else
        finishMove g g.player_position.1
          (min (((g.board.getD 0 []).length : Int) - 1) (g.player_position.2 + 1)) := by
  fin_cases hd <;> rfl

/-! ## Claims about the landing mutation and the move resolver -/

/-- C3: for every game and every in-bounds cell, `update_game_state` changes
health and moves by exactly the fixed tile effect — Blank `(0, -1)`,
Speeder `(-5, 0)`, Lava `(-50, -10)`, Mud `(-10, -5)` — and sets the player
position to that cell. -/
theorem update_game_state_effect_table (g : GameState) (row col : Int)
    (_hb : InBounds g.board (row, col)) :
    (update_game_state g row col).player_position = (row, col) ∧
    (cellAt g.board row col = Tile.Blank →
      (update_game_state g row col).health = g.health ∧
      (update_game_state g row col).moves = g.moves - 1) ∧
    (cellAt g.board row col = Tile.Speeder →
      (update_game_state g row col).health = g.health - 5 ∧
      (update_game_state g row col).moves = g.moves) ∧
    (cellAt g.board row col = Tile.Lava →
      (update_game_state g row col).health = g.health - 50 ∧
      (update_game_state g row col).moves = g.moves - 10) ∧
    (cellAt g.board row col = Tile.Mud →
      (update_game_state g row col).health = g.health - 10 ∧
      (update_game_state g row col).moves = g.moves - 5) := by
  rw [update_game_state_eq]
  refine ⟨rfl, ?_, ?_, ?_, ?_⟩ <;> intro h <;> rw [h] <;> constructor <;> simp [landCost]

/-- C10: landing on a Start or End cell applies no resource effect —
`update_game_state` only moves the player — and in particular a clamped
"left" move from the starting column relands on Start and is reported as
`Continuing` with zero health and move losses. -/
theorem start_end_cells_no_effect :
    (∀ (g : GameState) (row col : Int),
      cellAt g.board row col = Tile.Start ∨ cellAt g.board row col = Tile.End →
      update_game_state g row col = { g with player_position := (row, col) }) ∧
    (∀ (g : GameState) (r : Int),
      g.player_position = (r, 0) → cellAt g.board r 0 = Tile.Start →
      0 < g.health → 0 < g.moves → ((r, (0 : Int)) : Pos) ≠ g.end_position →
      make_move g "left" =
        ({ g with player_position := (r, 0) },
         Response.continuing Tile.Start (r, 0) g.moves g.health 0 0
           g.end_position)) := by
  have hupd : ∀ (g : GameState) (row col : Int),
      cellAt g.board row col = Tile.Start ∨ cellAt g.board row col = Tile.End →
      update_game_state g row col = { g with player_position := (row, col) } := by
    intro g row col h
    rw [update_game_state_eq]
    rcases h with h | h <;> rw [h] <;> simp [landCost]
  refine ⟨hupd, ?_⟩
  intro g r hpos htile hh hm hne
  have hmv : make_move g "left" = finishMove g r (max 0 (0 - 1)) := by
    rw [make_move_valid g "left" (by simp)]
    simp [hpos]
  have hmax : (max 0 (0 - 1) : Int) = 0 := by omega
  rw [hmv, hmax]
  rw [finishMove_continuing g r 0 (by rw [htile]; simpa [landCost] using hh)
    (by rw [htile]; simpa [landCost] using hm) hne]
  rw [hupd g r 0 (Or.inl htile), htile]
  simp [landCost]

/-- C2: loss takes priority — for every game and valid direction, if the
state after the landing mutation has health ≤ 0 or moves ≤ 0 the response is
`Lost` (even if the new position is the end position), and `Won` is returned
only when health and moves are positive and the new position is the end
position. -/
theorem make_move_loss_priority (g : GameState) (d : String)
    (hd : d ∈ (["up", "down", "left", "right"] : List String)) :
    (((make_move g d).1.health ≤ 0 ∨ (make_move g d).1.moves ≤ 0) →
      isLost (make_move g d).2 = true) ∧
    (isWon (make_move g d).2 = true →
      0 < (make_move g d).1.health ∧ 0 < (make_move g d).1.moves ∧
      (make_move g d).1.player_position = g.end_position) := by
  rw [make_move_valid g d hd]
  fin_cases hd <;> simp only [String.reduceEq, if_true, if_false, reduceIte] <;>
    exact ⟨isLost_finishMove g _ _, isWon_finishMove g _ _⟩

theorem make_move_unknown_direction (g : GameState) (d : String)
    (hd : d ∉ (["up", "down", "left", "right"] : List String)) :
    make_move g d = (g, Response.invalidMove) := by
  simp only [List.mem_cons, List.mem_singleton, not_or] at hd
  obtain ⟨h1, h2, h3, h4⟩ := hd
  simp only [make_move, if_neg h1, if_neg h2, if_neg h3,
    if_neg (by simpa using h4)]

theorem isValidDir_eq_false (d : String)
    (hd : d ∉ (["up", "down", "left", "right"] : List String)) :
    isValidDir d = false := by
  simp only [List.mem_cons, List.mem_singleton, not_or] at hd
  obtain ⟨h1, h2, h3, h4⟩ := hd
  unfold isValidDir
  simp [h1, h2, h3, h4]

/-- C7: an unrecognized direction string yields the invalid-move error and
leaves the game state exactly as it was. -/
theorem make_move_invalid_direction (g : GameState) (d : String)
    (hd : d ∉ (["up", "down", "left", "right"] : List String)) :
    make_move g d = (g, Response.invalidMove) :=
  make_move_unknown_direction g d hd

/-- C6: moves clamp instead of wrapping — from an in-bounds player position,
every valid direction produces an in-bounds position, so the in-bounds
player-position invariant is preserved by every move. -/
theorem make_move_clamps (g : GameState) (d : String)
    (hd : d ∈ (["up", "down", "left", "right"] : List String))
    (hp : InBounds g.board g.player_position) :
    InBounds g.board (make_move g d).1.player_position := by
  obtain ⟨h1, h2, h3, h4⟩ := hp
  rw [make_move_valid g d hd]
  have hpos : ∀ row col, (finishMove g row col).1.player_position = ((row, col) : Pos) := by
    intro row col
    rw [finishMove_fst, update_game_state_eq]
  fin_cases hd <;>
    simp only [String.reduceEq, if_true, if_false, reduceIte] <;>
    rw [hpos] <;>
    exact ⟨by omega, by omega, by omega, by omega⟩

/-! ## BFS unfolding lemmas and the immediate-answer claims -/

theorem bfs_nil (board : Board) (endp : Pos) (fuel : Nat) (visited : List Pos) :
    bfs board endp fuel [] visited = some false := by
  cases fuel <;> rfl

theorem bfs_cons (board : Board) (endp : Pos) (fuel : Nat) (p : Pos)
    (health moves : Int) (rest : List QEntry) (visited : List Pos) :
    bfs board endp (fuel + 1) ((p, health, moves) :: rest) visited =
      if p = endp then some true
      else if health ≤ 0 ∨ moves ≤ 0 then bfs board endp fuel rest visited
      else if p ∈ visited then bfs board endp fuel rest visited
      else bfs board endp fuel (rest ++ neighbors board p health moves)
        (p :: visited) := rfl

theorem bfsFuel_succ (board : Board) :
    bfsFuel board = (4 * (allCells board).length + 4) + 1 := rfl

/-- C4: when the start position equals the end position, `find_winning_path`
returns true for every board and every budget, zero or negative budgets
included, because the dequeued start state is tested against the end position
before its budget is tested. -/
theorem find_winning_path_start_eq_end (board : Board) (s e : Pos)
    (health moves : Int) (he : s = e) :
    find_winning_path board s e health moves = true := by
  subst he
  unfold find_winning_path
  rw [bfsFuel_succ, bfs_cons, if_pos rfl]

/-- C5: when the starting budget has health ≤ 0 and moves ≤ 0 and the start
differs from the end, `find_winning_path` returns false: the start state is
discarded without enqueuing anything, so the queue exhausts. -/
theorem find_winning_path_exhausted_budget (board : Board) (s e : Pos)
    (health moves : Int) (hh : health ≤ 0) (_hm : moves ≤ 0) (hne : s ≠ e) :
    find_winning_path board s e health moves = false := by
  unfold find_winning_path
  rw [bfsFuel_succ, bfs_cons, if_neg hne, if_pos (Or.inl hh), bfs_nil]

/-! ## Termination of the BFS within the board-size iteration budget -/

/-- Number of elements of `U` not yet in the visited list. -/
def unvisitedCount (U visited : List Pos) : Nat :=
  (U.filter fun q => decide (q ∉ visited)).length

theorem unvisitedCount_nil (U : List Pos) : unvisitedCount U [] = U.length := by
  simp [unvisitedCount]

theorem filter_unvisited_cons_of_mem (us vis : List Pos) (u : Pos) (h : u ∈ vis) :
    (u :: us).filter (fun q => decide (q ∉ vis)) =
      us.filter (fun q => decide (q ∉ vis)) :=
  List.filter_cons_of_neg (by simp [h])

theorem filter_unvisited_cons_of_notMem (us vis : List Pos) (u : Pos) (h : u ∉ vis) :
    (u :: us).filter (fun q => decide (q ∉ vis)) =
      u :: us.filter (fun q => decide (q ∉ vis)) :=
  List.filter_cons_of_pos (by simp [h])

theorem unvisitedCount_mono (U : List Pos) (p : Pos) (visited : List Pos) :
    unvisitedCount U (p :: visited) ≤ unvisitedCount U visited := by
  induction U with
  | nil => exact le_refl _
  | cons u us ih =>
    unfold unvisitedCount at ih ⊢
    by_cases h1 : u ∈ p :: visited
    · rw [filter_unvisited_cons_of_mem us (p :: visited) u h1]
      by_cases h2 : u ∈ visited
      · rw [filter_unvisited_cons_of_mem us visited u h2]
        exact ih
      · rw [filter_unvisited_cons_of_notMem us visited u h2, List.length_cons]
        omega
    · have h2 : u ∉ visited := fun hc => h1 (List.mem_cons_of_mem _ hc)
      rw [filter_unvisited_cons_of_notMem us (p :: visited) u h1,
        filter_unvisited_cons_of_notMem us visited u h2, List.length_cons,
        List.length_cons]
      omega

theorem unvisitedCount_cons (U : List Pos) (p : Pos) (visited : List Pos)
    (hU : p ∈ U) (hv : p ∉ visited) :
    unvisitedCount U (p :: visited) + 1 ≤ unvisitedCount U visited := by
  induction U with
  | nil => cases hU
  | cons u us ih =>
    by_cases hup : u = p
    · subst hup
      unfold unvisitedCount
      rw [filter_unvisited_cons_of_mem us (u :: visited) u (List.mem_cons_self _ _),
        filter_unvisited_cons_of_notMem us visited u hv, List.length_cons]
      have := unvisitedCount_mono us u visited
      unfold unvisitedCount at this
      omega
    · have hU' : p ∈ us := by
        rcases List.mem_cons.mp hU with h | h
        · exact absurd h.symm hup
        · exact h
      have ih' := ih hU'
      unfold unvisitedCount at ih' ⊢
      by_cases hu : u ∈ visited
      · rw [filter_unvisited_cons_of_mem us (p :: visited) u (List.mem_cons_of_mem _ hu),
          filter_unvisited_cons_of_mem us visited u hu]
        exact ih'
      · have hu' : u ∉ p :: visited := by
          intro hc
          rcases List.mem_cons.mp hc with h | h
          · exact hup h
          · exact hu h
        rw [filter_unvisited_cons_of_notMem us (p :: visited) u hu',
          filter_unvisited_cons_of_notMem us visited u hu, List.length_cons,
          List.length_cons]
        omega

theorem neighbors_length_le (board : Board) (p : Pos) (health moves : Int) :
    (neighbors board p health moves).length ≤ 4 := by
  unfold neighbors
  exact List.length_filterMap_le _ _

theorem neighbors_mem_inBounds (board : Board) (p : Pos) (health moves : Int) :
    ∀ e ∈ neighbors board p health moves, InBounds board e.1 := by
  intro e he
  unfold neighbors at he
  rw [List.mem_filterMap] at he
  obtain ⟨d, _, hfd⟩ := he
  dsimp only [] at hfd
  split at hfd
  · cases hfd
    assumption
  · cases hfd

theorem mem_allCells_of_inBounds (board : Board) (p : Pos)
    (h : InBounds board p) : p ∈ allCells board := by
  obtain ⟨a, b⟩ := p
  obtain ⟨h1, h2, h3, h4⟩ := h
  have hma : a.toNat ∈ List.range board.length := List.mem_range.mpr (by omega)
  have hmb : b.toNat ∈ List.range (board.getD 0 []).length :=
    List.mem_range.mpr (by omega)
  have heq : ((Int.ofNat a.toNat, Int.ofNat b.toNat) : Pos) = ((a, b) : Pos) := by
    simp only [Int.ofNat_eq_natCast, Prod.mk.injEq]
    constructor <;> omega
  exact List.mem_flatMap.mpr ⟨a.toNat, hma, List.mem_map.mpr ⟨b.toNat, hmb, heq⟩⟩

theorem bfs_isSome (board : Board) (endp : Pos) (U : List Pos)
    (hU : ∀ p, InBounds board p → p ∈ U) :
    ∀ (fuel : Nat) (queue : List QEntry) (visited : List Pos),
      (∀ e ∈ queue, e.1 ∈ U) →
      queue.length + 4 * unvisitedCount U visited ≤ fuel →
      (bfs board endp fuel queue visited).isSome = true := by
  intro fuel
  induction fuel with
  | zero =>
    intro queue visited _ hlen
    have hq0 : queue = [] := List.eq_nil_of_length_eq_zero (by omega)
    rw [hq0, bfs_nil]
    rfl
  | succ k ih =>
    intro queue visited hq hlen
    cases queue with
    | nil =>
      rw [bfs_nil]
      rfl
    | cons e rest =>
      obtain ⟨p, health, moves⟩ := e
      rw [bfs_cons]
      by_cases hpe : p = endp
      · rw [if_pos hpe]
        rfl
      rw [if_neg hpe]
      have hrest : ∀ e ∈ rest, e.1 ∈ U := fun e he => hq e (List.mem_cons_of_mem _ he)
      have hlen' : rest.length + 4 * unvisitedCount U visited ≤ k := by
        simp only [List.length_cons] at hlen
        omega
      by_cases hbud : health ≤ 0 ∨ moves ≤ 0
      · rw [if_pos hbud]
        exact ih rest visited hrest hlen'
      rw [if_neg hbud]
      by_cases hvis : p ∈ visited
      · rw [if_pos hvis]
        exact ih rest visited hrest hlen'
      rw [if_neg hvis]
      apply ih
      · intro e he
        rcases List.mem_append.mp he with h | h
        · exact hrest e h
        · exact hU e.1 (neighbors_mem_inBounds board p health moves e h)
      · have h1 : (neighbors board p health moves).length ≤ 4 :=
          neighbors_length_le board p health moves
        have h2 : unvisitedCount U (p :: visited) + 1 ≤ unvisitedCount U visited :=
          unvisitedCount_cons U p visited
            (hq (p, health, moves) (List.mem_cons_self _ _)) hvis
        simp only [List.length_append]
        omega

/-- C9: the BFS of `find_winning_path` terminates on every board and every
start/end/budget input — the iteration budget derived from the board size is
never exhausted — and when the start is in bounds it terminates within
`4 * cells + 1` iterations, one per enqueue, since each position is visited
at most once and each visit enqueues at most four in-bounds neighbors. -/
theorem find_winning_path_terminates (board : Board) (s e : Pos)
    (health moves : Int) :
    (bfs board e (bfsFuel board) [(s, health, moves)] []).isSome = true ∧
    (InBounds board s →
      (bfs board e (4 * (allCells board).length + 1)
        [(s, health, moves)] []).isSome = true) := by
  constructor
  · apply bfs_isSome board e (s :: allCells board)
    · intro p hp
      exact List.mem_cons_of_mem _ (mem_allCells_of_inBounds board p hp)
    · intro e' he'
      rcases List.mem_singleton.mp he' with rfl
      exact List.mem_cons_self _ _
    · rw [unvisitedCount_nil, bfsFuel_succ]
      simp only [List.length_cons, List.length_nil]
      omega
  · intro hs
    apply bfs_isSome board e (allCells board)
    · intro p hp
      exact mem_allCells_of_inBounds board p hp
    · intro e' he'
      rcases List.mem_singleton.mp he' with rfl
      exact mem_allCells_of_inBounds board s hs
    · rw [unvisitedCount_nil]
      simp only [List.length_cons, List.length_nil]
      omega

/-! ## Board generation: the Start/End placement invariant -/

/-- Number of cells of a row equal to the given tile. -/
def rowCount (row : List Tile) (t : Tile) : Nat :=
  row.countP fun x => decide (x = t)

theorem rowCount_cons (x : Tile) (xs : List Tile) (t : Tile) :
    rowCount (x :: xs) t = rowCount xs t + rowCount [x] t := by
  unfold rowCount
  rw [List.countP_cons, List.countP_cons, List.countP_nil]
  omega

theorem rowCount_singleton_self (t : Tile) : rowCount [t] t = 1 := by
  unfold rowCount
  simp

theorem rowCount_singleton_ne (x t : Tile) (h : x ≠ t) : rowCount [x] t = 0 := by
  unfold rowCount
  simp [h]

theorem countTile_cons (row : List Tile) (rows : Board) (t : Tile) :
    countTile (row :: rows) t = rowCount row t + countTile rows t := by
  unfold countTile rowCount
  rw [List.map_cons, List.sum_cons]

theorem rowCount_set (row : List Tile) (c : Nat) (v t : Tile) (hc : c < row.length) :
    rowCount (row.set c v) t + rowCount [row.getD c Tile.Blank] t =
      rowCount row t + rowCount [v] t := by
  induction row generalizing c with
  | nil => simp at hc
  | cons x xs ih =>
    cases c with
    | zero =>
      rw [List.set_cons_zero, List.getD_cons_zero]
      have e1 := rowCount_cons v xs t
      have e2 := rowCount_cons x xs t
      omega
    | succ c' =>
      have hc' : c' < xs.length := by simpa using hc
      have ih' := ih c' hc'
      rw [List.set_cons_succ, List.getD_cons_succ]
      have e1 := rowCount_cons x (xs.set c' v) t
      have e2 := rowCount_cons x xs t
      omega

theorem countTile_set_row (board : Board) (r : Nat) (newRow : List Tile) (t : Tile)
    (hr : r < board.length) :
    countTile (board.set r newRow) t + rowCount (board.getD r []) t =
      countTile board t + rowCount newRow t := by
  induction board generalizing r with
  | nil => simp at hr
  | cons b bs ih =>
    cases r with
    | zero =>
      rw [List.set_cons_zero, List.getD_cons_zero]
      have e1 := countTile_cons newRow bs t
      have e2 := countTile_cons b bs t
      omega
    | succ r' =>
      have hr' : r' < bs.length := by simpa using hr
      have ih' := ih r' hr'
      rw [List.set_cons_succ, List.getD_cons_succ]
      have e1 := countTile_cons b (bs.set r' newRow) t
      have e2 := countTile_cons b bs t
      omega

theorem countTile_setCell (board : Board) (r c : Nat) (v t : Tile)
    (hr : r < board.length) (hc : c < (board.getD r []).length) :
    countTile (setCell board r c v) t + rowCount [cellAtN board r c] t =
      countTile board t + rowCount [v] t := by
  unfold setCell cellAtN
  have h1 := countTile_set_row board r ((board.getD r []).set c v) t hr
  have h2 := rowCount_set (board.getD r []) c v t hc
  omega

theorem getD_mem {α : Type} (l : List α) (i : Nat) (d : α) (h : i < l.length) :
    l.getD i d ∈ l := by
  rw [List.getD_eq_getElem?_getD, List.getElem?_eq_getElem h, Option.getD_some]
  exact List.getElem_mem h

theorem getRowD_set_self (board : Board) (r : Nat) (row : List Tile)
    (h : r < board.length) :
    (board.set r row).getD r [] = row := by
  rw [List.getD_eq_getElem?_getD, List.getElem?_set_self (by simpa using h),
    Option.getD_some]

theorem getRowD_set_ne (board : Board) (r r' : Nat) (row : List Tile)
    (h : r ≠ r') :
    (board.set r row).getD r' [] = board.getD r' [] := by
  rw [List.getD_eq_getElem?_getD, List.getElem?_set_ne h,
    ← List.getD_eq_getElem?_getD]

theorem getD_set_self {α : Type} (l : List α) (i : Nat) (a d : α)
    (h : i < l.length) : (l.set i a).getD i d = a := by
  rw [List.getD_eq_getElem?_getD, List.getElem?_set_self (by simpa using h),
    Option.getD_some]

theorem getD_set_ne {α : Type} (l : List α) (i j : Nat) (a d : α) (h : i ≠ j) :
    (l.set i a).getD j d = l.getD j d := by
  rw [List.getD_eq_getElem?_getD, List.getElem?_set_ne h,
    ← List.getD_eq_getElem?_getD]

theorem cellAtN_setCell_self (board : Board) (r c : Nat) (t : Tile)
    (hr : r < board.length) (hc : c < (board.getD r []).length) :
    cellAtN (setCell board r c t) r c = t := by
  unfold cellAtN setCell
  rw [getRowD_set_self board r _ hr, getD_set_self _ c t Tile.Blank hc]

theorem cellAtN_setCell_ne (board : Board) (r c : Nat) (t : Tile) (r' c' : Nat)
    (h : r ≠ r' ∨ c ≠ c') :
    cellAtN (setCell board r c t) r' c' = cellAtN board r' c' := by
  unfold cellAtN setCell
  by_cases hrr : r = r'
  · subst hrr
    have hcc : c ≠ c' := h.resolve_left (fun hc => hc rfl)
    by_cases hlen : r < board.length
    · rw [getRowD_set_self board r _ hlen, getD_set_ne _ c c' t Tile.Blank hcc]
    · rw [List.set_eq_of_length_le (by omega)]
  · rw [getRowD_set_ne board r r' _ hrr]

/-- Board well-formedness after generation: a 50×50 grid. -/
def Dims50 (board : Board) : Prop :=
  board.length = 50 ∧ ∀ r, r < 50 → (board.getD r []).length = 50

/-- Every cell is one of the four effect kinds (no Start or End marker). -/
def EffectTilesOnly (board : Board) : Prop :=
  ∀ row ∈ board, ∀ x ∈ row, x ≠ Tile.Start ∧ x ≠ Tile.End

theorem tile_mem_effect (x : Tile) (hs : x ≠ Tile.Start) (he : x ≠ Tile.End) :
    x ∈ [Tile.Blank, Tile.Speeder, Tile.Lava, Tile.Mud] := by
  cases x <;> simp_all

theorem dims50_setCell (board : Board) (r c : Nat) (t : Tile)
    (h : Dims50 board) : Dims50 (setCell board r c t) := by
  obtain ⟨h1, h2⟩ := h
  constructor
  · unfold setCell
    rw [List.length_set]
    exact h1
  · intro r' hr'
    unfold setCell
    by_cases hrr : r = r'
    · subst hrr
      have hlen : r < board.length := by omega
      rw [getRowD_set_self board r _ hlen, List.length_set]
      exact h2 r hr'
    · rw [getRowD_set_ne board r r' _ hrr]
      exact h2 r' hr'

theorem effectTilesOnly_setCell (board : Board) (r c : Nat) (v : Tile)
    (hv : v ≠ Tile.Start ∧ v ≠ Tile.End) (hb : EffectTilesOnly board) :
    EffectTilesOnly (setCell board r c v) := by
  intro row hrow x hx
  unfold setCell at hrow
  rcases List.mem_or_eq_of_mem_set hrow with h | h
  · exact hb row h x hx
  · subst h
    rcases List.mem_or_eq_of_mem_set hx with h2 | h2
    · by_cases hr : r < board.length
      · exact hb _ (getD_mem board r [] hr) x h2
      · rw [List.getD_eq_getElem?_getD, List.getElem?_eq_none (by omega)] at h2
        cases h2
    · subst h2
      exact hv

theorem place_zero (t : Tile) (picks : List (Nat × Nat)) (b : Board) :
    place t 0 picks b = some (b, picks) := by
  cases picks <;> rfl

theorem place_succ_nil (t : Tile) (n : Nat) (b : Board) :
    place t (n + 1) [] b = none := rfl

theorem place_succ_cons (t : Tile) (n : Nat) (r c : Nat)
    (picks : List (Nat × Nat)) (b : Board) :
    place t (n + 1) ((r, c) :: picks) b =
      if cellAtN b r c = Tile.Blank then place t n picks (setCell b r c t)
      else place t (n + 1) picks b := rfl

theorem place_preserves (t : Tile) (P : Board → Prop)
    (hP : ∀ b r c, P b → P (setCell b r c t)) :
    ∀ (picks : List (Nat × Nat)) (n : Nat) (b b' : Board)
      (rest : List (Nat × Nat)),
      place t n picks b = some (b', rest) → P b → P b' := by
  intro picks
  induction picks with
  | nil =>
    intro n b b' rest h hb
    cases n with
    | zero =>
      rw [place_zero] at h
      cases h
      exact hb
    | succ n' =>
      rw [place_succ_nil] at h
      cases h
  | cons p ps ih =>
    intro n b b' rest h hb
    obtain ⟨r, c⟩ := p
    cases n with
    | zero =>
      rw [place_zero] at h
      cases h
      exact hb
    | succ n' =>
      rw [place_succ_cons] at h
      split at h
      · exact ih n' _ b' rest h (hP b r c hb)
      · exact ih (n' + 1) b b' rest h hb

theorem initialize_board_wf (cs cl cm : Nat) (picks : List (Nat × Nat))
    (b : Board) (h : initialize_board cs cl cm picks = some b) :
    Dims50 b ∧ EffectTilesOnly b := by
  have hdims0 : Dims50 (List.replicate 50 (List.replicate 50 Tile.Blank)) := by
    constructor
    · exact List.length_replicate 50 _
    · intro r hr
      rw [List.getD_eq_getElem?_getD, List.getElem?_replicate]
      rw [if_pos (by omega)]
      rw [Option.getD_some]
      exact List.length_replicate 50 _
  have heff0 : EffectTilesOnly (List.replicate 50 (List.replicate 50 Tile.Blank)) := by
    intro row hrow x hx
    have := List.eq_of_mem_replicate hrow
    subst this
    have := List.eq_of_mem_replicate hx
    subst this
    exact ⟨by simp, by simp⟩
  simp only [initialize_board] at h
  split at h
  · cases h
  next b1 p1 h1 =>
    split at h
    · cases h
    next b2 p2 h2 =>
      split at h
      · cases h
      next b3 p3 h3 =>
        cases h
        have d1 : Dims50 b1 :=
          place_preserves Tile.Speeder Dims50 (fun b r c => dims50_setCell b r c _)
            picks cs _ b1 p1 h1 hdims0
        have d2 : Dims50 b2 :=
          place_preserves Tile.Lava Dims50 (fun b r c => dims50_setCell b r c _)
            p1 cl _ b2 p2 h2 d1
        have d3 : Dims50 b :=
          place_preserves Tile.Mud Dims50 (fun b r c => dims50_setCell b r c _)
            p2 cm _ b p3 h3 d2
        have e1 : EffectTilesOnly b1 :=
          place_preserves Tile.Speeder EffectTilesOnly
            (fun b r c => effectTilesOnly_setCell b r c _ (by simp))
            picks cs _ b1 p1 h1 heff0
        have e2 : EffectTilesOnly b2 :=
          place_preserves Tile.Lava EffectTilesOnly
            (fun b r c => effectTilesOnly_setCell b r c _ (by simp))
            p1 cl _ b2 p2 h2 e1
        have e3 : EffectTilesOnly b :=
          place_preserves Tile.Mud EffectTilesOnly
            (fun b r c => effectTilesOnly_setCell b r c _ (by simp))
            p2 cm _ b p3 h3 e2
        exact ⟨d3, e3⟩

theorem countTile_eq_zero_of (b : Board) (t : Tile)
    (h : ∀ row ∈ b, ∀ x ∈ row, x ≠ t) : countTile b t = 0 := by
  unfold countTile
  apply List.sum_eq_zero
  intro x hx
  rw [List.mem_map] at hx
  obtain ⟨row, hrow, rfl⟩ := hx
  rw [List.countP_eq_zero]
  intro a ha
  simp [h row hrow a ha]

theorem effect_cell (b : Board) (hd : Dims50 b) (he : EffectTilesOnly b)
    (r c : Nat) (hr : r < 50) (hc : c < 50) :
    cellAtN b r c ∈ [Tile.Blank, Tile.Speeder, Tile.Lava, Tile.Mud] := by
  have hrl : r < b.length := by rw [hd.1]; exact hr
  have hcl : c < (b.getD r []).length := by rw [hd.2 r hr]; exact hc
  have h2 := he _ (getD_mem b r [] hrl) _ (getD_mem (b.getD r []) c Tile.Blank hcl)
  exact tile_mem_effect _ h2.1 h2.2

/-- C8: every board produced by game creation carries exactly one Start cell,
located in column 0 at the chosen start row, exactly one End cell, located in
the last column (49) at the chosen end row, and every other cell is one of
the four effect kinds Blank, Speeder, Lava, Mud. -/
theorem create_game_board_invariant (start_row end_row cs cl cm : Nat)
    (picks : List (Nat × Nat)) (g : GameState)
    (hg : create_game start_row end_row cs cl cm picks = some g)
    (hsr : start_row < 50) (her : end_row < 50) :
    countTile g.board Tile.Start = 1 ∧ countTile g.board Tile.End = 1 ∧
    cellAtN g.board start_row 0 = Tile.Start ∧
    cellAtN g.board end_row 49 = Tile.End ∧
    (∀ r c : Nat, r < 50 → c < 50 → (r ≠ start_row ∨ c ≠ 0) →
      (r ≠ end_row ∨ c ≠ 49) →
      cellAtN g.board r c ∈ [Tile.Blank, Tile.Speeder, Tile.Lava, Tile.Mud]) := by
  unfold create_game at hg
  split at hg
  · cases hg
  next b hinit =>
    obtain ⟨hdims, heff⟩ := initialize_board_wf cs cl cm picks b hinit
    cases hg
    dsimp only
    have hrb : start_row < b.length := by rw [hdims.1]; exact hsr
    have hcb : (0 : Nat) < (b.getD start_row []).length := by
      rw [hdims.2 _ hsr]; omega
    have hrb2 : end_row < b.length := by rw [hdims.1]; exact her
    have hcb2 : (49 : Nat) < (b.getD end_row []).length := by
      rw [hdims.2 _ her]; omega
    have hdimsA : Dims50 (setCell b start_row 0 Tile.Start) :=
      dims50_setCell b start_row 0 Tile.Start hdims
    have hrbA : end_row < (setCell b start_row 0 Tile.Start).length := by
      rw [hdimsA.1]; exact her
    have hcbA : (49 : Nat) < ((setCell b start_row 0 Tile.Start).getD end_row []).length := by
      rw [hdimsA.2 _ her]; omega
    have hS0 : countTile b Tile.Start = 0 :=
      countTile_eq_zero_of b Tile.Start (fun row hr x hx => (heff row hr x hx).1)
    have hE0 : countTile b Tile.End = 0 :=
      countTile_eq_zero_of b Tile.End (fun row hr x hx => (heff row hr x hx).2)
    have hcells : cellAtN b start_row 0 ≠ Tile.Start ∧ cellAtN b start_row 0 ≠ Tile.End :=
      heff _ (getD_mem b start_row [] hrb) _ (getD_mem _ 0 Tile.Blank hcb)
    have hcelle : cellAtN b end_row 49 ≠ Tile.Start ∧ cellAtN b end_row 49 ≠ Tile.End :=
      heff _ (getD_mem b end_row [] hrb2) _ (getD_mem _ 49 Tile.Blank hcb2)
    have hAe : cellAtN (setCell b start_row 0 Tile.Start) end_row 49 = cellAtN b end_row 49 :=
      cellAtN_setCell_ne b start_row 0 Tile.Start end_row 49 (Or.inr (by omega))
    have hcA := countTile_setCell b start_row 0 Tile.Start Tile.Start hrb hcb
    have hcAE := countTile_setCell b start_row 0 Tile.Start Tile.End hrb hcb
    have hcB := countTile_setCell (setCell b start_row 0 Tile.Start) end_row 49
      Tile.End Tile.Start hrbA hcbA
    have hcBE := countTile_setCell (setCell b start_row 0 Tile.Start) end_row 49
      Tile.End Tile.End hrbA hcbA
    rw [rowCount_singleton_ne _ _ hcells.1, rowCount_singleton_self] at hcA
    rw [rowCount_singleton_ne _ _ hcells.2,
      rowCount_singleton_ne _ _ (by simp)] at hcAE
    rw [hAe, rowCount_singleton_ne _ _ hcelle.1,
      rowCount_singleton_ne _ _ (by simp)] at hcB
    rw [hAe, rowCount_singleton_ne _ _ hcelle.2, rowCount_singleton_self] at hcBE
    refine ⟨by omega, by omega, ?_, ?_, ?_⟩
    · rw [cellAtN_setCell_ne (setCell b start_row 0 Tile.Start) end_row 49
        Tile.End start_row 0 (Or.inr (by omega))]
      exact cellAtN_setCell_self b start_row 0 Tile.Start hrb hcb
    · exact cellAtN_setCell_self (setCell b start_row 0 Tile.Start) end_row 49
        Tile.End hrbA hcbA
    · intro r c hr hc h1 h2
      rw [cellAtN_setCell_ne (setCell b start_row 0 Tile.Start) end_row 49
        Tile.End r c (h2.imp Ne.symm Ne.symm)]
      rw [cellAtN_setCell_ne b start_row 0 Tile.Start r c (h1.imp Ne.symm Ne.symm)]
      exact effect_cell b hdims heff r c hr hc

/-! ## Soundness of the feasibility check: replaying a BFS path as moves -/

/-- Positions (with BFS budgets) reachable by the BFS expansion relation:
every expanded source is distinct from the end and has positive budgets; the
stepped-to entry is exactly one produced in `neighbors`. -/
inductive Reach (board : Board) (endp s : Pos) (h0 m0 : Int) : Pos → Int → Int → Prop
  | base : Reach board endp s h0 m0 s h0 m0
  | step {p : Pos} {h m : Int} {q : Pos} {hq mq : Int} :
      Reach board endp s h0 m0 p h m → p ≠ endp → 0 < h → 0 < m →
      ((q, hq, mq) : QEntry) ∈ neighbors board p h m →
      Reach board endp s h0 m0 q hq mq

theorem bfs_true_reach (board : Board) (endp s : Pos) (h0 m0 : Int) :
    ∀ (fuel : Nat) (queue : List QEntry) (visited : List Pos),
      (∀ p h m, ((p, h, m) : QEntry) ∈ queue → Reach board endp s h0 m0 p h m) →
      bfs board endp fuel queue visited = some true →
      ∃ h m, Reach board endp s h0 m0 endp h m := by
  intro fuel
  induction fuel with
  | zero =>
    intro queue visited hq hbfs
    cases queue with
    | nil =>
      rw [bfs_nil] at hbfs
      simp at hbfs
    | cons e rest =>
      obtain ⟨p, h, m⟩ := e
      rw [show bfs board endp 0 ((p, h, m) :: rest) visited = none from rfl] at hbfs
      cases hbfs
  | succ k ih =>
    intro queue visited hq hbfs
    cases queue with
    | nil =>
      rw [bfs_nil] at hbfs
      simp at hbfs
    | cons e rest =>
      obtain ⟨p, h, m⟩ := e
      rw [bfs_cons] at hbfs
      by_cases hpe : p = endp
      · subst hpe
        exact ⟨h, m, hq p h m (List.mem_cons_self _ _)⟩
      · rw [if_neg hpe] at hbfs
        by_cases hbud : h ≤ 0 ∨ m ≤ 0
        · rw [if_pos hbud] at hbfs
          exact ih rest visited
            (fun p' h' m' he => hq p' h' m' (List.mem_cons_of_mem _ he)) hbfs
        · rw [if_neg hbud] at hbfs
          by_cases hvis : p ∈ visited
          · rw [if_pos hvis] at hbfs
            exact ih rest visited
              (fun p' h' m' he => hq p' h' m' (List.mem_cons_of_mem _ he)) hbfs
          · rw [if_neg hvis] at hbfs
            apply ih _ _ ?_ hbfs
            intro p' h' m' he
            rcases List.mem_append.mp he with h2 | h2
            · exact hq p' h' m' (List.mem_cons_of_mem _ h2)
            · exact Reach.step (hq p h m (List.mem_cons_self _ _)) hpe
                (by omega) (by omega) h2

/-- A run of moves whose every outcome is `Continuing`, from the first state
to the last. -/
inductive ContinuingRun : GameState → List String → GameState → Prop
  | nil (g : GameState) : ContinuingRun g [] g
  | cons {g : GameState} {d : String} {g' : GameState} {resp : Response}
      {ds : List String} {g'' : GameState} :
      make_move g d = (g', resp) → isValidDir d = true →
      isContinuing resp = true → ContinuingRun g' ds g'' →
      ContinuingRun g (d :: ds) g''

theorem ContinuingRun.snoc {g0 : GameState} {ds : List String} {g : GameState}
    (hrun : ContinuingRun g0 ds g) {d : String} {g' : GameState}
    {resp : Response} (hmv : make_move g d = (g', resp))
    (hd : isValidDir d = true) (hc : isContinuing resp = true) :
    ContinuingRun g0 (ds ++ [d]) g' := by
  induction hrun with
  | nil g1 => exact ContinuingRun.cons hmv hd hc (ContinuingRun.nil g')
  | cons hmv1 hd1 hc1 _ ih => exact ContinuingRun.cons hmv1 hd1 hc1 (ih hmv)

theorem winsSeq_singleton (g : GameState) (d : String) :
    winsSeq g [d] = (isValidDir d && isWon (make_move g d).2) := rfl

theorem winsSeq_cons_cons (g : GameState) (d d' : String) (ds : List String) :
    winsSeq g (d :: d' :: ds) =
      (isValidDir d &&
        (isContinuing (make_move g d).2 && winsSeq (make_move g d).1 (d' :: ds))) := rfl

theorem winsSeq_append_won {g0 : GameState} {ds : List String} {g : GameState}
    (hrun : ContinuingRun g0 ds g) (d : String) (hd : isValidDir d = true)
    (hw : isWon (make_move g d).2 = true) : winsSeq g0 (ds ++ [d]) = true := by
  induction hrun with
  | nil g1 =>
    rw [List.nil_append, winsSeq_singleton, hd, hw]
    rfl
  | @cons g1 d1 g1' resp1 ds1 g1'' hmv1 hd1 hc1 _ ih =>
    cases ds1 with
    | nil =>
      simp only [List.cons_append, List.nil_append] at ih ⊢
      rw [winsSeq_cons_cons, hmv1]
      rw [hd1, hc1, ih hw]
      rfl
    | cons d2 ds2 =>
      simp only [List.cons_append] at ih ⊢
      rw [winsSeq_cons_cons, hmv1]
      rw [hd1, hc1, ih hw]
      rfl

theorem make_move_up (g : GameState) (hc : 0 ≤ g.player_position.1 - 1) :
    make_move g "up" = finishMove g (g.player_position.1 - 1) g.player_position.2 := by
  rw [make_move_valid g "up" (by simp)]
  simp only [String.reduceEq, reduceIte]
  congr 1
  omega

theorem make_move_down (g : GameState)
    (hc : g.player_position.1 + 1 < (g.board.length : Int)) :
    make_move g "down" = finishMove g (g.player_position.1 + 1) g.player_position.2 := by
  rw [make_move_valid g "down" (by simp)]
  simp only [String.reduceEq, reduceIte]
  congr 1
  omega

theorem make_move_left (g : GameState) (hc : 0 ≤ g.player_position.2 - 1) :
    make_move g "left" = finishMove g g.player_position.1 (g.player_position.2 - 1) := by
  rw [make_move_valid g "left" (by simp)]
  simp only [String.reduceEq, reduceIte]
  congr 1
  omega

theorem make_move_right (g : GameState)
    (hc : g.player_position.2 + 1 < ((g.board.getD 0 []).length : Int)) :
    make_move g "right" = finishMove g g.player_position.1 (g.player_position.2 + 1) := by
  rw [make_move_valid g "right" (by simp)]
  simp only [String.reduceEq, reduceIte]
  congr 1
  omega

theorem neighbors_move (g : GameState) (q : Pos) (hq mq h m : Int)
    (hmem : ((q, hq, mq) : QEntry) ∈ neighbors g.board g.player_position h m) :
    InBounds g.board q ∧
    hq = h - (stepCost (cellAt g.board q.1 q.2)).1 ∧
    mq = m - (stepCost (cellAt g.board q.1 q.2)).2 ∧
    ∃ d : String, isValidDir d = true ∧ make_move g d = finishMove g q.1 q.2 := by
  obtain ⟨q1, q2⟩ := q
  unfold neighbors at hmem
  rw [List.mem_filterMap] at hmem
  obtain ⟨dd, hdd, hfd⟩ := hmem
  fin_cases hdd
  · dsimp only at hfd
    simp only [Int.add_zero, ← Int.sub_eq_add_neg] at hfd
    split at hfd
    next hb =>
      injection hfd with hfd
      rw [Prod.mk.injEq, Prod.mk.injEq, Prod.mk.injEq] at hfd
      obtain ⟨⟨e1, e2⟩, e3, e4⟩ := hfd
      subst e1
      subst e2
      subst e3
      subst e4
      obtain ⟨hb1, hb2, hb3, hb4⟩ := hb
      refine ⟨⟨hb1, hb2, hb3, hb4⟩, rfl, rfl, "right", rfl, ?_⟩
      rw [make_move_right g hb4]
    next => cases hfd
  · dsimp only at hfd
    simp only [Int.add_zero, ← Int.sub_eq_add_neg] at hfd
    split at hfd
    next hb =>
      injection hfd with hfd
      rw [Prod.mk.injEq, Prod.mk.injEq, Prod.mk.injEq] at hfd
      obtain ⟨⟨e1, e2⟩, e3, e4⟩ := hfd
      subst e1
      subst e2
      subst e3
      subst e4
      obtain ⟨hb1, hb2, hb3, hb4⟩ := hb
      refine ⟨⟨hb1, hb2, hb3, hb4⟩, rfl, rfl, "left", rfl, ?_⟩
      rw [make_move_left g hb3]
    next => cases hfd
  · dsimp only at hfd
    simp only [Int.add_zero, ← Int.sub_eq_add_neg] at hfd
    split at hfd
    next hb =>
      injection hfd with hfd
      rw [Prod.mk.injEq, Prod.mk.injEq, Prod.mk.injEq] at hfd
      obtain ⟨⟨e1, e2⟩, e3, e4⟩ := hfd
      subst e1
      subst e2
      subst e3
      subst e4
      obtain ⟨hb1, hb2, hb3, hb4⟩ := hb
      refine ⟨⟨hb1, hb2, hb3, hb4⟩, rfl, rfl, "down", rfl, ?_⟩
      rw [make_move_down g hb2]
    next => cases hfd
  · dsimp only at hfd
    simp only [Int.add_zero, ← Int.sub_eq_add_neg] at hfd
    split at hfd
    next hb =>
      injection hfd with hfd
      rw [Prod.mk.injEq, Prod.mk.injEq, Prod.mk.injEq] at hfd
      obtain ⟨⟨e1, e2⟩, e3, e4⟩ := hfd
      subst e1
      subst e2
      subst e3
      subst e4
      obtain ⟨hb1, hb2, hb3, hb4⟩ := hb
      refine ⟨⟨hb1, hb2, hb3, hb4⟩, rfl, rfl, "up", rfl, ?_⟩
      rw [make_move_up g hb1]
    next => cases hfd

theorem landCost_le_stepCost (t : Tile) :
    (landCost t).1 ≤ (stepCost t).1 ∧ (landCost t).2 ≤ (stepCost t).2 := by
  cases t <;> constructor <;> simp [landCost, stepCost]

theorem Reach.elim_last {board : Board} {endp s : Pos} {h0 m0 : Int}
    {p : Pos} {h m : Int} (hr : Reach board endp s h0 m0 p h m) :
    (p = s ∧ h = h0 ∧ m = m0) ∨
    ∃ p' h' m', Reach board endp s h0 m0 p' h' m' ∧ p' ≠ endp ∧
      0 < h' ∧ 0 < m' ∧ ((p, h, m) : QEntry) ∈ neighbors board p' h' m' := by
  cases hr with
  | base => exact Or.inl ⟨rfl, rfl, rfl⟩
  | step hr' hne hh hm hmem => exact Or.inr ⟨_, _, _, hr', hne, hh, hm, hmem⟩

theorem reach_replay (g0 : GameState) (p : Pos) (h m : Int)
    (hreach : Reach g0.board g0.end_position g0.player_position
      g0.health g0.moves p h m) :
    0 < h → 0 < m → p ≠ g0.end_position →
    ∃ (ds : List String) (g : GameState),
      ContinuingRun g0 ds g ∧ g.player_position = p ∧ g.board = g0.board ∧
      g.end_position = g0.end_position ∧ h ≤ g.health ∧ m ≤ g.moves := by
  induction hreach with
  | base =>
    intro _ _ _
    exact ⟨[], g0, ContinuingRun.nil g0, rfl, rfl, rfl, le_refl _, le_refl _⟩
  | @step p1 h1 m1 q hq mq hr hpne hh hm hmem ih =>
    intro hhq hmq _
    obtain ⟨ds, g, hrun, hgp, hgb, hge, hgh, hgm⟩ := ih hh hm hpne
    rw [← hgb, ← hgp] at hmem
    obtain ⟨hbq, he3, he4, d, hdv, hmv⟩ := neighbors_move g q hq mq h1 m1 hmem
    have hcost := landCost_le_stepCost (cellAt g.board q.1 q.2)
    have hfh : 0 < g.health - (landCost (cellAt g.board q.1 q.2)).1 := by omega
    have hfm : 0 < g.moves - (landCost (cellAt g.board q.1 q.2)).2 := by omega
    have hne' : ((q.1, q.2) : Pos) ≠ g.end_position := by
      rw [hge, Prod.mk.eta]
      assumption
    have hfin := finishMove_continuing g q.1 q.2 hfh hfm hne'
    refine ⟨ds ++ [d], update_game_state g q.1 q.2, ?_, ?_, ?_, ?_, ?_, ?_⟩
    · exact ContinuingRun.snoc hrun (hmv.trans hfin) hdv rfl
    · rw [update_game_state_eq]
    · rw [update_game_state_eq]
      exact hgb
    · rw [update_game_state_eq]
      exact hge
    · rw [update_game_state_eq]
      dsimp only
      omega
    · rw [update_game_state_eq]
      dsimp only
      omega

/-- C1 (amended): for every game state whose player position differs from the
end position and whose board carries the End tile at the end position, a true
answer of `find_winning_path` on the game's board, position, end and budget
is sound: some finite sequence of valid directions yields `Continuing` at
every intermediate step and `Won` at the last; false answers carry no
guarantee. -/
theorem find_winning_path_sound (g : GameState)
    (hne : g.player_position ≠ g.end_position)
    (hend : cellAt g.board g.end_position.1 g.end_position.2 = Tile.End)
    (hfw : find_winning_path g.board g.player_position g.end_position
      g.health g.moves = true) :
    ∃ ds : List String, winsSeq g ds = true := by
  have hbfs : bfs g.board g.end_position (bfsFuel g.board)
      [(g.player_position, g.health, g.moves)] [] = some true := by
    unfold find_winning_path at hfw
    split at hfw
    next b heq =>
      rw [hfw] at heq
      exact heq
    next heq => cases hfw
  have hinv : ∀ p h m, ((p, h, m) : QEntry) ∈
      ([(g.player_position, g.health, g.moves)] : List QEntry) →
      Reach g.board g.end_position g.player_position g.health g.moves p h m := by
    intro p h m hm
    have he := List.mem_singleton.mp hm
    injection he with i1 i2
    injection i2 with i3 i4
    subst i1
    subst i3
    subst i4
    exact Reach.base
  obtain ⟨he, me, hreach⟩ := bfs_true_reach g.board g.end_position
    g.player_position g.health g.moves (bfsFuel g.board)
    [(g.player_position, g.health, g.moves)] [] hinv hbfs
  rcases hreach.elim_last with ⟨he1, _, _⟩ | ⟨p, h, m, hr, hpne, hh, hm, hmem⟩
  · exact absurd he1.symm hne
  · obtain ⟨ds, gg, hrun, hgp, hgb, hge, hgh, hgm⟩ :=
      reach_replay g p h m hr hh hm hpne
    rw [← hgb, ← hgp] at hmem
    obtain ⟨hbq, he3, he4, d, hdv, hmv⟩ :=
      neighbors_move gg g.end_position he me h m hmem
    have hendg : cellAt gg.board g.end_position.1 g.end_position.2 = Tile.End := by
      rw [hgb]
      exact hend
    have hfh : 0 < gg.health -
        (landCost (cellAt gg.board g.end_position.1 g.end_position.2)).1 := by
      rw [hendg]
      simp only [landCost]
      omega
    have hfm : 0 < gg.moves -
        (landCost (cellAt gg.board g.end_position.1 g.end_position.2)).2 := by
      rw [hendg]
      simp only [landCost]
      omega
    have hpe : ((g.end_position.1, g.end_position.2) : Pos) = gg.end_position := by
      rw [hge, Prod.mk.eta]
    have hwon := finishMove_won gg g.end_position.1 g.end_position.2 hfh hfm hpe
    refine ⟨ds ++ [d], winsSeq_append_won hrun d hdv ?_⟩
    rw [hmv.trans hwon]
    rfl

/-! ## The feasibility check is not sound on arbitrary states -/

theorem landCost_nonneg (t : Tile) :
    0 ≤ (landCost t).1 ∧ 0 ≤ (landCost t).2 := by
  cases t <;> constructor <;> simp [landCost]

theorem isWon_finishMove_false (g : GameState) (row col : Int)
    (h : (update_game_state g row col).health ≤ 0) :
    isWon (finishMove g row col).2 = false := by
  rw [finishMove_lost_eq g row col (Or.inl h)]
  rfl

theorem isContinuing_finishMove_false (g : GameState) (row col : Int)
    (h : (update_game_state g row col).health ≤ 0) :
    isContinuing (finishMove g row col).2 = false := by
  rw [finishMove_lost_eq g row col (Or.inl h)]
  rfl

theorem winsSeq_of_health_nonpos (g : GameState) (hg : g.health ≤ 0)
    (ds : List String) : winsSeq g ds = false := by
  cases ds with
  | nil => rfl
  | cons d ds' =>
    have hkey : ∀ row col : Int, (update_game_state g row col).health ≤ 0 := by
      intro row col
      rw [update_game_state_eq]
      dsimp only
      have := landCost_nonneg (cellAt g.board row col)
      omega
    by_cases hd : d ∈ (["up", "down", "left", "right"] : List String)
    · have hwon : isWon (make_move g d).2 = false := by
        fin_cases hd <;>
          simp only [make_move, String.reduceEq, reduceIte] <;>
            exact isWon_finishMove_false g _ _ (hkey _ _)
      have hcont : isContinuing (make_move g d).2 = false := by
        fin_cases hd <;>
          simp only [make_move, String.reduceEq, reduceIte] <;>
            exact isContinuing_finishMove_false g _ _ (hkey _ _)
      cases ds' with
      | nil =>
        rw [winsSeq_singleton, hwon]
        simp
      | cons d2 ds2 =>
        rw [winsSeq_cons_cons, hcont]
        simp
    · have hv := isValidDir_eq_false d hd
      cases ds' with
      | nil =>
        rw [winsSeq_singleton, hv]
        rfl
      | cons d2 ds2 =>
        rw [winsSeq_cons_cons, hv]
        rfl

/-- A state already on the end cell with exhausted health: the BFS answers
true at once, but every move from here is reported as `Lost`. -/
def cexGame1 : GameState :=
  { player_position := (0, 0)
    board := [[Tile.End]]
    health := 0
    moves := 5
    end_position := (0, 0) }

/-- A state whose only route to the end cell crosses the Lava tile sitting on
the end position itself: the BFS enqueues the end with a dead budget and
answers true on popping it, but the real move onto it drops health to -40. -/
def cexGame2 : GameState :=
  { player_position := (0, 0)
    board := [[Tile.Start, Tile.Lava]]
    health := 10
    moves := 10
    end_position := (0, 1) }

theorem cexGame2_no_win (ds : List String) : winsSeq cexGame2 ds = false := by
  induction ds with
  | nil => rfl
  | cons d ds ih =>
    by_cases hd : d ∈ (["up", "down", "left", "right"] : List String)
    · fin_cases hd
      · cases ds with
        | nil => decide
        | cons d2 ds2 =>
          rw [winsSeq_cons_cons]
          rw [show make_move cexGame2 "up" =
            (cexGame2, Response.continuing Tile.Start (0, 0) 10 10 0 0 (0, 1))
            from rfl]
          simp only [isValidDir, isContinuing]
          rw [ih]
          rfl
      · cases ds with
        | nil => decide
        | cons d2 ds2 =>
          rw [winsSeq_cons_cons]
          rw [show make_move cexGame2 "down" =
            (cexGame2, Response.continuing Tile.Start (0, 0) 10 10 0 0 (0, 1))
            from rfl]
          simp only [isValidDir, isContinuing]
          rw [ih]
          rfl
      · cases ds with
        | nil => decide
        | cons d2 ds2 =>
          rw [winsSeq_cons_cons]
          rw [show make_move cexGame2 "left" =
            (cexGame2, Response.continuing Tile.Start (0, 0) 10 10 0 0 (0, 1))
            from rfl]
          simp only [isValidDir, isContinuing]
          rw [ih]
          rfl
      · cases ds with
        | nil => decide
        | cons d2 ds2 =>
          rw [winsSeq_cons_cons]
          rw [show (make_move cexGame2 "right").2 =
            Response.lost Tile.Lava (0, 1) 50 10 (0, 1) from rfl]
          rfl
    · have hv := isValidDir_eq_false d hd
      cases ds with
      | nil =>
        rw [winsSeq_singleton, hv]
        rfl
      | cons d2 ds2 =>
        rw [winsSeq_cons_cons, hv]
        rfl

/-- C1 counterexample: two explicit game states on which `find_winning_path`
returns true although no sequence of valid moves ever wins — one with the
player already on the end cell with exhausted health, one whose end cell
holds a Lava tile whose cost the BFS never checks on arrival. -/
theorem find_winning_path_not_sound :
    (find_winning_path cexGame1.board cexGame1.player_position
        cexGame1.end_position cexGame1.health cexGame1.moves = true ∧
      ¬ ∃ ds : List String, winsSeq cexGame1 ds = true) ∧
    (find_winning_path cexGame2.board cexGame2.player_position
        cexGame2.end_position cexGame2.health cexGame2.moves = true ∧
      ¬ ∃ ds : List String, winsSeq cexGame2 ds = true) := by
  refine ⟨⟨by decide, ?_⟩, ⟨by decide, ?_⟩⟩
  · rintro ⟨ds, hds⟩
    rw [winsSeq_of_health_nonpos cexGame1 (by decide) ds] at hds
    cases hds
  · rintro ⟨ds, hds⟩
    rw [cexGame2_no_win ds] at hds
    cases hds

/-! ## Concrete witnesses -/

/-- A two-cell game on which the feasibility check is sound: start next to
the end cell. -/
def winnableGame : GameState :=
  { player_position := (0, 0)
    board := [[Tile.Start, Tile.End]]
    health := 200
    moves := 450
    end_position := (0, 1) }

theorem find_winning_path_sound_witness :
    winnableGame.player_position ≠ winnableGame.end_position ∧
    cellAt winnableGame.board winnableGame.end_position.1
      winnableGame.end_position.2 = Tile.End ∧
    find_winning_path winnableGame.board winnableGame.player_position
      winnableGame.end_position winnableGame.health winnableGame.moves = true ∧
    ∃ ds : List String, winsSeq winnableGame ds = true :=
  ⟨by decide, by decide, by decide,
    find_winning_path_sound winnableGame (by decide) (by decide) (by decide)⟩

/-- A one-row game with a Lava cell next to the player. -/
def lavaGame : GameState :=
  { player_position := (0, 0)
    board := [[Tile.Lava, Tile.Blank]]
    health := 10
    moves := 10
    end_position := (0, 1) }

theorem make_move_loss_priority_witness :
    ("up" ∈ (["up", "down", "left", "right"] : List String)) ∧
    ((((make_move lavaGame "up").1.health ≤ 0 ∨
        (make_move lavaGame "up").1.moves ≤ 0) →
      isLost (make_move lavaGame "up").2 = true) ∧
    (isWon (make_move lavaGame "up").2 = true →
      0 < (make_move lavaGame "up").1.health ∧
      0 < (make_move lavaGame "up").1.moves ∧
      (make_move lavaGame "up").1.player_position = lavaGame.end_position)) :=
  ⟨by decide, make_move_loss_priority lavaGame "up" (by decide)⟩

/-- A one-cell Mud game. -/
def mudGame : GameState :=
  { player_position := (0, 0)
    board := [[Tile.Mud]]
    health := 100
    moves := 100
    end_position := (0, 0) }

theorem update_game_state_effect_table_witness :
    InBounds mudGame.board (0, 0) ∧
    ((update_game_state mudGame 0 0).player_position = ((0 : Int), (0 : Int)) ∧
    (cellAt mudGame.board 0 0 = Tile.Blank →
      (update_game_state mudGame 0 0).health = mudGame.health ∧
      (update_game_state mudGame 0 0).moves = mudGame.moves - 1) ∧
    (cellAt mudGame.board 0 0 = Tile.Speeder →
      (update_game_state mudGame 0 0).health = mudGame.health - 5 ∧
      (update_game_state mudGame 0 0).moves = mudGame.moves) ∧
    (cellAt mudGame.board 0 0 = Tile.Lava →
      (update_game_state mudGame 0 0).health = mudGame.health - 50 ∧
      (update_game_state mudGame 0 0).moves = mudGame.moves - 10) ∧
    (cellAt mudGame.board 0 0 = Tile.Mud →
      (update_game_state mudGame 0 0).health = mudGame.health - 10 ∧
      (update_game_state mudGame 0 0).moves = mudGame.moves - 5)) :=
  ⟨by decide, update_game_state_effect_table mudGame 0 0 (by decide)⟩

theorem find_winning_path_start_eq_end_witness :
    (((0 : Int), (0 : Int)) : Pos) = ((0 : Int), (0 : Int)) ∧
    find_winning_path [[Tile.Blank]] (0, 0) (0, 0) (-5) (-7) = true :=
  ⟨rfl, find_winning_path_start_eq_end [[Tile.Blank]] (0, 0) (0, 0) (-5) (-7) rfl⟩

theorem find_winning_path_exhausted_budget_witness :
    (0 : Int) ≤ 0 ∧ (-1 : Int) ≤ 0 ∧ (((0 : Int), (0 : Int)) : Pos) ≠ (0, 1) ∧
    find_winning_path [[Tile.Blank, Tile.Blank]] (0, 0) (0, 1) 0 (-1) = false :=
  ⟨by decide, by decide, by decide,
    find_winning_path_exhausted_budget [[Tile.Blank, Tile.Blank]] (0, 0) (0, 1)
      0 (-1) (by decide) (by decide) (by decide)⟩

theorem make_move_clamps_witness :
    ("up" ∈ (["up", "down", "left", "right"] : List String)) ∧
    InBounds lavaGame.board lavaGame.player_position ∧
    InBounds lavaGame.board (make_move lavaGame "up").1.player_position :=
  ⟨by decide, by decide,
    make_move_clamps lavaGame "up" (by decide) (by decide)⟩

theorem make_move_invalid_direction_witness :
    ("diagonal" ∉ (["up", "down", "left", "right"] : List String)) ∧
    make_move lavaGame "diagonal" = (lavaGame, Response.invalidMove) :=
  ⟨by decide, make_move_invalid_direction lavaGame "diagonal" (by decide)⟩

/-- The game produced by `create_game` for start row 3, end row 5 and no
hazards. -/
def sampleGame : GameState :=
  (create_game 3 5 0 0 0 []).getD
    { player_position := (0, 0)
      board := []
      health := 0
      moves := 0
      end_position := (0, 0) }

theorem create_game_board_invariant_witness :
    create_game 3 5 0 0 0 [] = some sampleGame ∧ 3 < 50 ∧ 5 < 50 ∧
    countTile sampleGame.board Tile.Start = 1 ∧
    countTile sampleGame.board Tile.End = 1 ∧
    cellAtN sampleGame.board 3 0 = Tile.Start ∧
    cellAtN sampleGame.board 5 49 = Tile.End ∧
    cellAtN sampleGame.board 0 0 ∈ [Tile.Blank, Tile.Speeder, Tile.Lava, Tile.Mud] := by
  have hg : create_game 3 5 0 0 0 [] = some sampleGame := rfl
  have h := create_game_board_invariant 3 5 0 0 0 [] sampleGame hg
    (by decide) (by decide)
  exact ⟨hg, by decide, by decide, h.1, h.2.1, h.2.2.1, h.2.2.2.1,
    h.2.2.2.2 0 0 (by decide) (by decide) (by decide) (by decide)⟩

theorem find_winning_path_terminates_witness :
    InBounds [[Tile.Blank]] (0, 0) ∧
    (bfs [[Tile.Blank]] (0, 0) (4 * (allCells [[Tile.Blank]]).length + 1)
      [((0, 0), 5, 5)] []).isSome = true ∧
    (bfs [[Tile.Blank]] (0, 0) (bfsFuel [[Tile.Blank]])
      [((0, 0), 5, 5)] []).isSome = true := by
  have h := find_winning_path_terminates [[Tile.Blank]] (0, 0) (0, 0) 5 5
  exact ⟨by decide, h.2 (by decide), h.1⟩

/-- A three-row game with Start at row 2, column 0 and End beside it. -/
def cornerGame : GameState :=
  { player_position := (2, 0)
    board := [[Tile.Blank, Tile.Blank], [Tile.Blank, Tile.Blank],
      [Tile.Start, Tile.End]]
    health := 200
    moves := 450
    end_position := (2, 1) }

theorem start_end_cells_no_effect_witness :
    (cellAt cornerGame.board 2 1 = Tile.Start ∨
      cellAt cornerGame.board 2 1 = Tile.End) ∧
    update_game_state cornerGame 2 1 =
      { cornerGame with player_position := (2, 1) } ∧
    make_move cornerGame "left" =
      ({ cornerGame with player_position := (2, 0) },
       Response.continuing Tile.Start (2, 0) cornerGame.moves cornerGame.health
         0 0 cornerGame.end_position) := by
  have h := start_end_cells_no_effect
  exact ⟨Or.inr (by decide), h.1 cornerGame 2 1 (Or.inr (by decide)),
    h.2 cornerGame 2 (by decide) (by decide) (by decide) (by decide) (by decide)⟩
